import Mathlib

/-!
Verification of the hexxagon board core (`src/main.rs`).

Shallow embedding conventions:
* Rust `i32` coordinates are modelled as `Int` (the board coordinates used by
  the program stay far from the `i32` boundaries, and no code path relies on
  wrap-around, so unbounded integers are a faithful model of the arithmetic
  the program performs).
* `HashMap<Pos, Piece>` is modelled as an association list `List (Pos × Piece)`;
  `get` is first-match lookup, `insert` replaces an existing key or appends,
  and the occupied-entry update of `Board::set` rewrites the value at an
  existing key only.  All maps the program builds have pairwise distinct keys,
  so the association list is an exact model of the hash map's key/value
  semantics (iteration order is never observed by the code under study).
* Rust strings are modelled as `List Char`; `str::lines`, `str::trim_end` and
  `textwrap::dedent` are translated below.  `char::is_whitespace` is modelled
  by `isWs`, which lists the full Unicode `White_Space` property set that
  Rust's `char::is_whitespace` tests.
* A `panic!`/failed `assert_eq!` outcome is a distinct constructor of
  `LoadResult`, separate from the `Err` and `Ok` results of `Board::load`.
-/

namespace Hexxagon

/-- Cell contents, from `enum Piece`.  `Empty` is an on-board empty cell,
distinct from a position that is off the board. -/
inductive Piece where
  | Empty : Piece
  | Black : Piece
  | White : Piece
deriving DecidableEq, Repr

/-- `Piece::opposite`: `Empty` maps to itself, `Black` and `White` swap. -/
def Piece.opposite : Piece → Piece
  | .Empty => .Empty
  | .Black => .White
  | .White => .Black

/-- `type Pos = (i32, i32)`. -/
abbrev Pos : Type := Int × Int

/-- `type Dir = (i32, i32)`. -/
abbrev Dir : Type := Int × Int

/-- The six step directions, `STEP_DIRECTIONS`, in source order. -/
def STEP_DIRECTIONS : List Dir :=
  [(2, 0), (1, 1), (-1, 1), (-2, 0), (-1, -1), (1, -1)]

/-- The twelve leap directions, `LEAP_DIRECTIONS`, in source order. -/
def LEAP_DIRECTIONS : List Dir :=
  [(4, 0), (3, 1), (2, 2), (0, 2), (-2, 2), (-3, 1),
   (-4, 0), (-3, -1), (-2, -2), (0, -2), (2, -2), (3, -1)]

/-- `enum Move`. -/
inductive Move where
  | Step : Pos → Move
  | Leap : Pos → Pos → Move

/-- `fn offset((x, y): Pos, (dx, dy): Dir) -> Pos`. -/
def offset : Pos → Dir → Pos
  | (x, y), (dx, dy) => (x + dx, y + dy)

/-- `type PositionMap = HashMap<Pos, Piece>`, as an association list. -/
abbrev PositionMap : Type := List (Pos × Piece)

/-- `HashMap::get`: first entry with the requested key. -/
def PositionMap.get : PositionMap → Pos → Option Piece
  | [], _ => none
  | e :: rest, p => if e.1 = p then some e.2 else PositionMap.get rest p

/-- The occupied-entry update used by `Board::set`: rewrite the value stored
at `p` if `p` is a key, leave the map unchanged otherwise. -/
def PositionMap.setOcc (m : PositionMap) (p : Pos) (v : Piece) : PositionMap :=
  m.map (fun e => if e.1 = p then (e.1, v) else e)

/-- `HashMap::insert`: replace the value at an existing key, or add the
binding when the key is absent. -/
def PositionMap.insert (m : PositionMap) (p : Pos) (v : Piece) : PositionMap :=
  if m.any (fun e => decide (e.1 = p)) then m.setOcc p v else m ++ [(p, v)]

/-- `struct Board { positions: PositionMap, turn: Piece }`. -/
structure Board where
  positions : PositionMap
  turn : Piece
deriving DecidableEq, Repr

/-- `Board::at` (`at` is a Lean keyword, hence the name `atP`):
look the position up in the position map. -/
def Board.atP (b : Board) (p : Pos) : Option Piece :=
  b.positions.get p

/-- `Board::set`: overwrite the piece at `pos` only if it is already a key. -/
def Board.set (b : Board) (p : Pos) (v : Piece) : Board :=
  { b with positions := b.positions.setOcc p v }

/-- The key set of the board's position map. -/
def Board.keys (b : Board) : List Pos :=
  b.positions.map Prod.fst

/-- `Board::_neighbors`: an off-board position has no neighbors; otherwise,
for each direction in order, include the offset position iff it is on-board. -/
def Board.neighborsAux (b : Board) (p : Pos) (dirs : List Dir) : List Pos :=
  match b.atP p with
  | none => []
  | some _ =>
    dirs.filterMap (fun d =>
      match b.atP (offset p d) with
      | some _ => some (offset p d)
      | none => none)

/-- `Board::step_neighbors`. -/
def Board.step_neighbors (b : Board) (p : Pos) : List Pos :=
  b.neighborsAux p STEP_DIRECTIONS

/-- `Board::leap_neighbors`. -/
def Board.leap_neighbors (b : Board) (p : Pos) : List Pos :=
  b.neighborsAux p LEAP_DIRECTIONS

/-- The body of the loop in `Board::flip_neighbors`: if the cell holds the
opposite of the current turn, set it to the current turn's piece. -/
def Board.flipOne (b : Board) (n : Pos) : Board :=
  match b.atP n with
  | some p => if p = b.turn.opposite then b.set n b.turn else b
  | none => b

/-- `Board::flip_neighbors`: the step-neighbor list is computed once, then the
board is updated cell by cell (`self.turn` is unchanged throughout). -/
def Board.flip_neighbors (b : Board) (p : Pos) : Board :=
  (b.step_neighbors p).foldl Board.flipOne b

/-- `Board::do_move`: place (and, for a leap, vacate the source), flip the
step-neighbors of the placed cell, then advance the turn. -/
def Board.do_move (b : Board) (mv : Move) : Board :=
  let b' :=
    match mv with
    | .Step p => (b.set p b.turn).flip_neighbors p
    | .Leap s e => ((b.set s .Empty).set e b.turn).flip_neighbors e
  { b' with turn := b'.turn.opposite }

/-- `Board::min_x`, with `none` standing for the `expect("empty board")`
panic branch. -/
def Board.min_x (b : Board) : Option Int :=
  (b.positions.map (fun e => e.1.1)).min?

/-- `Board::max_x`, with `none` standing for the panic branch. -/
def Board.max_x (b : Board) : Option Int :=
  (b.positions.map (fun e => e.1.1)).max?

/-- `Board::min_y`, with `none` standing for the panic branch. -/
def Board.min_y (b : Board) : Option Int :=
  (b.positions.map (fun e => e.1.2)).min?

/-- `Board::max_y`, with `none` standing for the panic branch. -/
def Board.max_y (b : Board) : Option Int :=
  (b.positions.map (fun e => e.1.2)).max?

/-! ### The loader (`Board::load`) and its string pipeline

Rust strings are `List Char`.  `Board::load` first calls `textwrap::dedent`,
then iterates `dedented.lines().map(|l| l.trim_end()).filter(|l| !l.is_empty())`
with row/column enumeration, inserting a binding per recognized character,
errs when nothing was recognized, and finally runs
`assert_eq!(board.min_x(), 0)` and `assert_eq!(board.min_y(), 0)`. -/

/-- `char::is_whitespace`: the Unicode `White_Space` property, i.e. exactly
the 25 code points U+0009–U+000D, U+0020, U+0085, U+00A0, U+1680,
U+2000–U+200A, U+2028, U+2029, U+202F, U+205F and U+3000. -/
def isWs (c : Char) : Bool :=
  (decide (0x09 ≤ c.toNat) && decide (c.toNat ≤ 0x0D))
    || c.toNat == 0x20 || c.toNat == 0x85 || c.toNat == 0xA0
    || c.toNat == 0x1680
    || (decide (0x2000 ≤ c.toNat) && decide (c.toNat ≤ 0x200A))
    || c.toNat == 0x2028 || c.toNat == 0x2029 || c.toNat == 0x202F
    || c.toNat == 0x205F || c.toNat == 0x3000

/-- Split a character sequence at every newline; always returns at least one
(possibly empty) part.  The part after the last newline is the last element. -/
def splitNl (cs : List Char) : List (List Char) :=
  cs.foldr
    (fun c acc =>
      match acc with
      | [] => [[c]]
      | a :: rest => if c = '\n' then [] :: a :: rest else (c :: a) :: rest)
    [[]]

/-- Drop a single trailing carriage return (a line terminated by `\r\n` in the
original text yields the line without the `\r`, per `str::lines`). -/
def stripCr (l : List Char) : List Char :=
  if l.getLast? = some '\r' then l.dropLast else l

/-- Finish `str::lines` from the parts produced by `splitNl`: every part that
was followed by a newline has a trailing `\r` stripped; a final empty part
(the text ended with a newline, or was empty) produces no line. -/
def rustLinesAux : List (List Char) → List (List Char)
  | [] => []
  | [l] => if l = [] then [] else [l]
  | l :: rest => stripCr l :: rustLinesAux rest

/-- `str::lines`. -/
def rustLines (cs : List Char) : List (List Char) :=
  rustLinesAux (splitNl cs)

/-- Longest common prefix of two character lists (the prefix-shortening step
of `textwrap::dedent`). -/
def commonPfx : List Char → List Char → List Char
  | a :: as, b :: bs => if a = b then a :: commonPfx as bs else []
  | _, _ => []

/-- The second loop of `textwrap::dedent`: for each remaining line, if the
common prefix of the current prefix and the line is shorter than the line,
shorten the prefix to it. -/
def shortenPfx (p : List Char) : List (List Char) → List Char
  | [] => p
  | l :: rest =>
    let c := commonPfx p l
    if c.length < l.length then shortenPfx c rest else shortenPfx p rest

/-- The first loop of `textwrap::dedent`: skip entirely-whitespace lines; the
first other line contributes its leading whitespace as the initial prefix,
which the remaining lines may then shorten. -/
def findPfx : List (List Char) → List Char
  | [] => []
  | l :: rest =>
    if l.all isWs then findPfx rest else shortenPfx (l.takeWhile isWs) rest

/-- The per-line output of `textwrap::dedent`: a line that starts with the
prefix and is not entirely whitespace loses the prefix; any other line
becomes empty. -/
def dedentLine (p : List Char) (l : List Char) : List Char :=
  if p.isPrefixOf l ∧ ¬ l.all isWs = true then l.drop p.length else []

/-- `textwrap::dedent`: compute the common whitespace prefix, process each
line, join with newlines (every line is emitted with a trailing newline, and
that last newline is popped when the input did not end with one). -/
def dedent (cs : List Char) : List Char :=
  let lines := rustLines cs
  let p := findPfx lines
  let out := (lines.map (dedentLine p)).foldr (fun l acc => l ++ '\n' :: acc) []
  if cs.getLast? = some '\n' then out else out.dropLast

/-- `str::trim_end` (trailing whitespace removed). -/
def trimEnd (l : List Char) : List Char :=
  (l.reverse.dropWhile isWs).reverse

/-- The line sequence `Board::load` enumerates:
`dedent(input).lines().map(trim_end).filter(non_empty)`. -/
def loadLines (input : List Char) : List (List Char) :=
  ((rustLines (dedent input)).map trimEnd).filter (fun l => !l.isEmpty)

/-- The character-to-cell match in `Board::load`. -/
def charPiece : Char → Option Piece
  | '-' => some .Empty
  | 'X' => some .Black
  | 'O' => some .White
  | _ => none

/-- The inner loop of `Board::load`: recognized characters of one line, with
their column index (starting at `x`) and the fixed row `y`. -/
def lineCellsFrom (y : Nat) (x : Nat) : List Char → List (Pos × Piece)
  | [] => []
  | c :: rest =>
    match charPiece c with
    | some pc => (((x : Int), (y : Int)), pc) :: lineCellsFrom y (x + 1) rest
    | none => lineCellsFrom y (x + 1) rest

/-- The outer loop of `Board::load`: recognized cells of all lines, rows
numbered from `y`. -/
def cellsFrom (y : Nat) : List (List Char) → List (Pos × Piece)
  | [] => []
  | l :: rest => lineCellsFrom y 0 l ++ cellsFrom (y + 1) rest

/-- All cells `Board::load` recognizes in `input`, in scan order. -/
def cellsOf (input : List Char) : List (Pos × Piece) :=
  cellsFrom 0 (loadLines input)

/-- The position map `Board::load` builds: one `HashMap::insert` per
recognized character, in scan order. -/
def buildPositions (input : List Char) : PositionMap :=
  (cellsOf input).foldl (fun m e => m.insert e.1 e.2) []

/-- The three ways `Board::load` can finish: the `Err` result, a panic
(`assert_eq!` failure), or the `Ok` board. -/
inductive LoadResult where
  | err : String → LoadResult
  | panicked : LoadResult
  | ok : Board → LoadResult
deriving DecidableEq, Repr

/-- `Board::load`: build the positions, err when empty, otherwise assert the
normalization invariant `min_x = 0 ∧ min_y = 0` and return the board with
`turn = Black`. -/
def load (input : List Char) : LoadResult :=
  let positions := buildPositions input
  if positions.length = 0 then .err "No pieces on board."
  else
    let board : Board := ⟨positions, .Black⟩
    if board.min_x = some 0 ∧ board.min_y = some 0 then .ok board
    else .panicked

/-! ### Basic lemmas about the map and board operations -/

theorem PositionMap.get_setOcc (m : PositionMap) (p : Pos) (v : Piece) (q : Pos) :
    (m.setOcc p v).get q =
      if q = p then (m.get p).map (fun _ => v) else m.get q := by
  induction m with
  | nil => simp [PositionMap.setOcc, PositionMap.get]
  | cons e rest ih =>
    simp only [PositionMap.setOcc, List.map_cons] at *
    by_cases hep : e.1 = p
    · subst hep
      by_cases hqp : q = e.1
      · subst hqp
        simp [PositionMap.get]
      · have h1 : ¬ e.1 = q := fun h => hqp h.symm
        simp [PositionMap.get, h1, hqp, ih]
    · by_cases heq : e.1 = q
      · have hqp : ¬ q = p := fun h => hep (heq.trans h)
        simp [PositionMap.get, heq, hqp, hep]
      · simp [PositionMap.get, heq, hep, ih]

theorem Board.atP_set (b : Board) (p : Pos) (v : Piece) (q : Pos) :
    (b.set p v).atP q =
      if q = p then (b.atP p).map (fun _ => v) else b.atP q :=
  PositionMap.get_setOcc b.positions p v q

theorem Board.turn_set (b : Board) (p : Pos) (v : Piece) :
    (b.set p v).turn = b.turn := rfl

theorem Board.isSome_atP_set (b : Board) (p : Pos) (v : Piece) (q : Pos) :
    ((b.set p v).atP q).isSome = (b.atP q).isSome := by
  rw [Board.atP_set]
  split_ifs with h
  · subst h; cases b.atP q <;> rfl
  · rfl

theorem Board.flipOne_turn (b : Board) (n : Pos) :
    (b.flipOne n).turn = b.turn := by
  unfold Board.flipOne
  cases b.atP n
  · rfl
  · dsimp only; split <;> rfl

theorem Board.flipFold_turn (ns : List Pos) (b : Board) :
    (ns.foldl Board.flipOne b).turn = b.turn := by
  induction ns generalizing b with
  | nil => rfl
  | cons n rest ih => rw [List.foldl_cons, ih, Board.flipOne_turn]

theorem Board.atP_flipOne (b : Board) (n : Pos) (q : Pos) :
    (b.flipOne n).atP q =
      if q = n ∧ b.atP n = some b.turn.opposite then some b.turn
      else b.atP q := by
  unfold Board.flipOne
  cases h : b.atP n with
  | none => simp [h]
  | some pc =>
    change (if pc = b.turn.opposite then b.set n b.turn else b).atP q
      = if q = n ∧ some pc = some b.turn.opposite then some b.turn else b.atP q
    by_cases hq : q = n
    · subst hq
      by_cases hpc : pc = b.turn.opposite
      · subst hpc
        simp [Board.atP_set, h]
      · simp [hpc]
    · by_cases hpc : pc = b.turn.opposite
      · subst hpc
        simp [hq, Board.atP_set]
      · simp [hq, hpc]

theorem Board.atP_flipFold (ns : List Pos) (b : Board) (q : Pos) :
    (ns.foldl Board.flipOne b).atP q =
      if q ∈ ns ∧ b.atP q = some b.turn.opposite then some b.turn
      else b.atP q := by
  induction ns generalizing b with
  | nil => simp
  | cons n rest ih =>
    rw [List.foldl_cons, ih, Board.flipOne_turn, Board.atP_flipOne]
    by_cases hq : q = n
    · subst hq
      by_cases hv : b.atP q = some b.turn.opposite
      · rw [if_pos (show q = q ∧ b.atP q = some b.turn.opposite from ⟨rfl, hv⟩),
          if_pos (show q ∈ q :: rest ∧ b.atP q = some b.turn.opposite from
            ⟨List.mem_cons_self q rest, hv⟩)]
        split_ifs <;> rfl
      · simp [hv]
    · simp [hq, List.mem_cons]

theorem PositionMap.keys_setOcc (m : PositionMap) (p : Pos) (v : Piece) :
    (m.setOcc p v).map Prod.fst = m.map Prod.fst := by
  unfold PositionMap.setOcc
  rw [List.map_map]
  apply List.map_congr_left
  intro e _
  by_cases h : e.1 = p <;> simp [h]

theorem Board.keys_set (b : Board) (p : Pos) (v : Piece) :
    (b.set p v).keys = b.keys :=
  PositionMap.keys_setOcc b.positions p v

theorem Board.keys_flipOne (b : Board) (n : Pos) :
    (b.flipOne n).keys = b.keys := by
  unfold Board.flipOne
  cases b.atP n
  · rfl
  · dsimp only; split
    · exact Board.keys_set b n b.turn
    · rfl

theorem Board.keys_flipFold (ns : List Pos) (b : Board) :
    (ns.foldl Board.flipOne b).keys = b.keys := by
  induction ns generalizing b with
  | nil => rfl
  | cons n rest ih => rw [List.foldl_cons, ih, Board.keys_flipOne]

theorem Board.keys_do_move (b : Board) (m : Move) :
    (b.do_move m).keys = b.keys := by
  cases m with
  | Step p =>
    show ((b.set p b.turn).flip_neighbors p).keys = b.keys
    rw [Board.flip_neighbors, Board.keys_flipFold, Board.keys_set]
  | Leap s e =>
    show (((b.set s .Empty).set e b.turn).flip_neighbors e).keys = b.keys
    rw [Board.flip_neighbors, Board.keys_flipFold, Board.keys_set, Board.keys_set]

/-! ### C3, C4, C5 -/

/-- C3: for every board whose turn is Black or White and every move (step or
leap, any positions), the turn after `do_move` is the opposite of the turn
before the call. -/
theorem C3_turn_alternation (b : Board) (m : Move)
    (_h : b.turn = .Black ∨ b.turn = .White) :
    (b.do_move m).turn = b.turn.opposite := by
  cases m <;>
    simp [Board.do_move, Board.flip_neighbors, Board.flipFold_turn, Board.turn_set]

/-- A one-cell board holding a black piece, with Black to move; a concrete
input for witnesses. -/
def exBoardB : Board :=
  Board.mk [(((0 : Int), (0 : Int)), Piece.Black)] Piece.Black

/-- A one-cell board holding an empty cell, with Black to move; a concrete
input for witnesses. -/
def exBoardE : Board :=
  Board.mk [(((0 : Int), (0 : Int)), Piece.Empty)] Piece.Black

/-- Witness for C3 at a concrete board and move. -/
theorem C3_turn_alternation_witness :
    (exBoardE.turn = .Black ∨ exBoardE.turn = .White)
    ∧ (exBoardE.do_move (.Step (0, 0))).turn = exBoardE.turn.opposite :=
  ⟨by decide, C3_turn_alternation _ _ (by decide)⟩

/-- C4: the key set of the position map is invariant under `set` (for any
position, on-board or not) and under `do_move` (for any move); in particular
`set` at an off-board position leaves the position absent. -/
theorem C4_keys_invariant (b : Board) (p : Pos) (v : Piece) (m : Move) :
    (b.set p v).keys = b.keys
    ∧ (b.do_move m).keys = b.keys
    ∧ (b.atP p = none → (b.set p v).atP p = none) := by
  refine ⟨Board.keys_set b p v, Board.keys_do_move b m, fun h => ?_⟩
  rw [Board.atP_set, if_pos rfl, h]
  rfl

/-- Witness for C4 at a concrete board, position, piece and move (the
position `(5, 5)` is off the board, exercising the no-op part). -/
theorem C4_keys_invariant_witness :
    (exBoardB.set (5, 5) Piece.White).keys = exBoardB.keys
    ∧ (exBoardB.do_move (.Leap (0, 0) (5, 5))).keys = exBoardB.keys
    ∧ (exBoardB.atP (5, 5) = none
        → (exBoardB.set (5, 5) Piece.White).atP (5, 5) = none) :=
  C4_keys_invariant exBoardB (5, 5) Piece.White (.Leap (0, 0) (5, 5))

/-! ### Neighbor-query lemmas, C1 and C2 -/

theorem Board.neighborFn_eq_some (b : Board) (p : Pos) (d : Dir) (q : Pos) :
    (match b.atP (offset p d) with
      | some _ => some (offset p d)
      | none => (none : Option Pos)) = some q
    ↔ offset p d = q ∧ (b.atP q).isSome = true := by
  cases hn : b.atP (offset p d) with
  | none =>
    constructor
    · intro hf
      exact Option.noConfusion hf
    · rintro ⟨rfl, hs⟩
      rw [hn] at hs
      exact Bool.noConfusion hs
  | some w =>
    constructor
    · intro hf
      injection hf with hf'
      exact ⟨hf', by rw [← hf', hn]; rfl⟩
    · intro h
      exact congrArg some h.1

theorem Board.mem_neighborsAux (b : Board) (p : Pos) (dirs : List Dir) (q : Pos) :
    q ∈ b.neighborsAux p dirs ↔
      (b.atP p).isSome = true
      ∧ ∃ d ∈ dirs, offset p d = q ∧ (b.atP q).isSome = true := by
  unfold Board.neighborsAux
  cases hp : b.atP p with
  | none => simp
  | some w =>
    simp only [Option.isSome_some, true_and, List.mem_filterMap]
    constructor
    · rintro ⟨d, hd, hf⟩
      exact ⟨d, hd, (b.neighborFn_eq_some p d q).mp hf⟩
    · rintro ⟨d, hd, h⟩
      exact ⟨d, hd, (b.neighborFn_eq_some p d q).mpr h⟩

theorem Board.neighborsAux_congr (b1 b2 : Board) (p : Pos) (dirs : List Dir)
    (h : ∀ q, (b1.atP q).isSome = (b2.atP q).isSome) :
    b1.neighborsAux p dirs = b2.neighborsAux p dirs := by
  unfold Board.neighborsAux
  cases h1 : b1.atP p with
  | none =>
    cases h2 : b2.atP p with
    | none => rfl
    | some w => have h0 := h p; rw [h1, h2] at h0; simp at h0
  | some w =>
    cases h2 : b2.atP p with
    | none => have h0 := h p; rw [h1, h2] at h0; simp at h0
    | some w2 =>
      apply List.filterMap_congr
      intro d _
      have h0 := h (offset p d)
      cases hd1 : b1.atP (offset p d) <;> cases hd2 : b2.atP (offset p d) <;>
        rw [hd1, hd2] at h0 <;> simp_all

theorem Board.step_neighbors_set (b : Board) (p : Pos) (v : Piece) (t : Pos) :
    (b.set p v).step_neighbors t = b.step_neighbors t :=
  Board.neighborsAux_congr _ _ t STEP_DIRECTIONS
    (fun q => Board.isSome_atP_set b p v q)

/-- Every step direction is nonzero, so a step neighbor is a different cell. -/
theorem step_dir_ne_zero : ∀ d ∈ STEP_DIRECTIONS, d ≠ ((0 : Int), (0 : Int)) := by
  decide

theorem offset_ne_self (p : Pos) (d : Dir)
    (h : d ≠ ((0 : Int), (0 : Int))) : offset p d ≠ p := by
  obtain ⟨x, y⟩ := p
  obtain ⟨dx, dy⟩ := d
  intro hc
  have hc' : ((x + dx, y + dy) : Pos) = (x, y) := hc
  rw [Prod.mk.injEq] at hc'
  apply h
  rw [Prod.mk.injEq]
  exact ⟨by omega, by omega⟩

theorem Board.mem_step_neighbors_ne (b : Board) (t q : Pos)
    (h : q ∈ b.step_neighbors t) : q ≠ t := by
  rw [Board.step_neighbors, Board.mem_neighborsAux] at h
  obtain ⟨-, d, hd, hq, -⟩ := h
  rw [← hq]
  exact offset_ne_self t d (step_dir_ne_zero d hd)

/-- The value of any cell after `do_move(Step(t))`: cells in the pre-move
step-neighbor list of `t` that held the opponent's piece (as seen after the
placement at `t`) become the mover's piece; every other cell keeps the value
it had after the placement at `t`. -/
theorem Board.atP_do_move_step (b : Board) (t : Pos) (q : Pos) :
    (b.do_move (.Step t)).atP q =
      if q ∈ b.step_neighbors t
          ∧ (b.set t b.turn).atP q = some b.turn.opposite then some b.turn
      else (b.set t b.turn).atP q := by
  show ((b.set t b.turn).flip_neighbors t).atP q = _
  rw [Board.flip_neighbors, Board.step_neighbors_set, Board.atP_flipFold,
    Board.turn_set]

/-- C1: after a step move at `t` by Black or White, the on-board
step-neighbors of `t` that held the opponent's piece now hold the mover's
piece, step-neighbors that held `Empty` or the mover's own piece are
unchanged, and every cell other than `t` and its step-neighbors is
unchanged. -/
theorem C1_flip_locality (b : Board) (t : Pos)
    (hturn : b.turn = .Black ∨ b.turn = .White)
    (_ht : (b.atP t).isSome = true) :
    (∀ n ∈ b.step_neighbors t,
        (b.atP n = some b.turn.opposite
          → (b.do_move (.Step t)).atP n = some b.turn)
      ∧ ((b.atP n = some .Empty ∨ b.atP n = some b.turn)
          → (b.do_move (.Step t)).atP n = b.atP n))
    ∧ ∀ p, p ≠ t → p ∉ b.step_neighbors t
        → (b.do_move (.Step t)).atP p = b.atP p := by
  constructor
  · intro n hn
    have hnt : n ≠ t := Board.mem_step_neighbors_ne b t n hn
    have hset : (b.set t b.turn).atP n = b.atP n := by
      rw [Board.atP_set, if_neg hnt]
    constructor
    · intro hv
      rw [Board.atP_do_move_step, hset, if_pos ⟨hn, hv⟩]
    · intro hv
      have hne : ¬ b.atP n = some b.turn.opposite := by
        intro hc
        rcases hv with h2 | h2 <;> rw [h2] at hc <;>
          rcases hturn with h1 | h1 <;> rw [h1] at hc <;>
            simp [Piece.opposite] at hc
      rw [Board.atP_do_move_step, hset, if_neg (fun hc => hne hc.2)]
  · intro p hpt hpn
    rw [Board.atP_do_move_step, if_neg (fun hc => hpn hc.1),
      Board.atP_set, if_neg hpt]

/-- Witness for C1: the spec's single-row scenario board. -/
def exBoardRow : Board :=
  Board.mk
    [(((0 : Int), (0 : Int)), Piece.Black), (((2 : Int), (0 : Int)), Piece.Empty),
     (((4 : Int), (0 : Int)), Piece.Empty), (((6 : Int), (0 : Int)), Piece.Empty),
     (((8 : Int), (0 : Int)), Piece.White)]
    Piece.Black

/-- Witness for C1 at the concrete single-row board with a step at `(2, 0)`. -/
theorem C1_flip_locality_witness :
    ((exBoardRow.turn = .Black ∨ exBoardRow.turn = .White)
      ∧ (exBoardRow.atP (2, 0)).isSome = true)
    ∧ ((∀ n ∈ exBoardRow.step_neighbors (2, 0),
          (exBoardRow.atP n = some exBoardRow.turn.opposite
            → (exBoardRow.do_move (.Step (2, 0))).atP n = some exBoardRow.turn)
        ∧ ((exBoardRow.atP n = some .Empty ∨ exBoardRow.atP n = some exBoardRow.turn)
            → (exBoardRow.do_move (.Step (2, 0))).atP n = exBoardRow.atP n))
      ∧ ∀ p, p ≠ (2, 0) → p ∉ exBoardRow.step_neighbors (2, 0)
          → (exBoardRow.do_move (.Step (2, 0))).atP p = exBoardRow.atP p) :=
  ⟨⟨by decide, by decide⟩, C1_flip_locality exBoardRow (2, 0) (by decide) (by decide)⟩

/-- C2 as stated is false when the leap source and target coincide: on a
one-cell board with a black piece at the origin and Black to move, the move
`Leap((0,0), (0,0))` satisfies every hypothesis of the claim (both positions
are on-board, and no step-neighbor holds the opponent's piece), yet
afterwards the source holds the mover's piece, not `Empty`. -/
theorem C2_counterexample :
    exBoardB.turn = .Black
    ∧ (exBoardB.atP (0, 0)).isSome = true
    ∧ (∀ n ∈ exBoardB.step_neighbors (0, 0),
        exBoardB.atP n ≠ some exBoardB.turn.opposite)
    ∧ (exBoardB.do_move (.Leap (0, 0) (0, 0))).atP (0, 0) ≠ some Piece.Empty := by
  decide

/-- The value of any cell after `do_move(Leap(s, t))`, in terms of the board
after the two placements. -/
theorem Board.atP_do_move_leap (b : Board) (s t : Pos) (q : Pos) :
    (b.do_move (.Leap s t)).atP q =
      if q ∈ ((b.set s .Empty).set t b.turn).step_neighbors t
          ∧ ((b.set s .Empty).set t b.turn).atP q = some b.turn.opposite
        then some b.turn
      else ((b.set s .Empty).set t b.turn).atP q := by
  show (((b.set s .Empty).set t b.turn).flip_neighbors t).atP q = _
  rw [Board.flip_neighbors, Board.atP_flipFold, Board.turn_set, Board.turn_set]

/-- C2, amended: the claim additionally needs `s ≠ t` (see
`C2_counterexample`); with that, after `Leap(s, t)` the source is `Empty`
and the target holds the mover's piece. -/
theorem C2_leap_relocates (b : Board) (s t : Pos)
    (hturn : b.turn = .Black ∨ b.turn = .White)
    (hs : (b.atP s).isSome = true) (ht : (b.atP t).isSome = true)
    (hst : s ≠ t)
    (_hnb : ∀ n ∈ b.step_neighbors t, b.atP n ≠ some b.turn.opposite) :
    (b.do_move (.Leap s t)).atP s = some .Empty
    ∧ (b.do_move (.Leap s t)).atP t = some b.turn := by
  have hts : t ≠ s := fun h => hst h.symm
  have h2s : ((b.set s .Empty).set t b.turn).atP s = some .Empty := by
    rw [Board.atP_set, if_neg hst, Board.atP_set, if_pos rfl]
    cases hv : b.atP s
    · rw [hv] at hs; exact absurd hs (by simp)
    · rfl
  have h2t : ((b.set s .Empty).set t b.turn).atP t = some b.turn := by
    rw [Board.atP_set, if_pos rfl, Board.atP_set, if_neg hts]
    cases hv : b.atP t
    · rw [hv] at ht; exact absurd ht (by simp)
    · rfl
  have hopp : ¬ some b.turn = some b.turn.opposite := by
    rcases hturn with h1 | h1 <;> rw [h1] <;> simp [Piece.opposite]
  have hoppE : ¬ (some Piece.Empty : Option Piece) = some b.turn.opposite := by
    rcases hturn with h1 | h1 <;> rw [h1] <;> simp [Piece.opposite]
  constructor
  · rw [Board.atP_do_move_leap, h2s, if_neg (fun hc => hoppE hc.2)]
  · rw [Board.atP_do_move_leap, h2t, if_neg (fun hc => hopp hc.2)]

/-- Witness for the amended C2 at the single-row board,
`Leap((8,0), (4,0))` with no opposing neighbor of the target. -/
theorem C2_leap_relocates_witness :
    ((exBoardRow.turn = .Black ∨ exBoardRow.turn = .White)
      ∧ (exBoardRow.atP (0, 0)).isSome = true
      ∧ (exBoardRow.atP (4, 0)).isSome = true
      ∧ (0, 0) ≠ ((4 : Int), (0 : Int))
      ∧ ∀ n ∈ exBoardRow.step_neighbors (4, 0),
          exBoardRow.atP n ≠ some exBoardRow.turn.opposite)
    ∧ ((exBoardRow.do_move (.Leap (0, 0) (4, 0))).atP (0, 0) = some .Empty
      ∧ (exBoardRow.do_move (.Leap (0, 0) (4, 0))).atP (4, 0) = some exBoardRow.turn) :=
  ⟨⟨by decide, by decide, by decide, by decide, by decide⟩,
    C2_leap_relocates exBoardRow (0, 0) (4, 0) (by decide) (by decide) (by decide)
      (by decide) (by decide)⟩

/-- C5: a position that is not a key of the position map has no step
neighbors and no leap neighbors. -/
theorem C5_offboard_neighbors (b : Board) (p : Pos) (h : b.atP p = none) :
    b.step_neighbors p = [] ∧ b.leap_neighbors p = [] := by
  unfold Board.step_neighbors Board.leap_neighbors Board.neighborsAux
  rw [h]
  exact ⟨rfl, rfl⟩

/-- Witness for C5 at a concrete board and off-board position. -/
theorem C5_offboard_neighbors_witness :
    exBoardB.atP (7, 7) = none
    ∧ exBoardB.step_neighbors (7, 7) = []
    ∧ exBoardB.leap_neighbors (7, 7) = [] :=
  ⟨by decide, C5_offboard_neighbors exBoardB (7, 7) (by decide)⟩

/-! ### C8: neighbor symmetry -/

/-- The step direction set is closed under negation. -/
theorem step_dir_neg_mem :
    ∀ d ∈ STEP_DIRECTIONS, ((-d.1, -d.2) : Dir) ∈ STEP_DIRECTIONS := by
  decide

/-- The leap direction set is closed under negation. -/
theorem leap_dir_neg_mem :
    ∀ d ∈ LEAP_DIRECTIONS, ((-d.1, -d.2) : Dir) ∈ LEAP_DIRECTIONS := by
  decide

theorem offset_neg (p : Pos) (d : Dir) :
    offset (offset p d) (-d.1, -d.2) = p := by
  obtain ⟨x, y⟩ := p
  obtain ⟨dx, dy⟩ := d
  show ((x + dx + -dx, y + dy + -dy) : Pos) = (x, y)
  rw [Prod.mk.injEq]
  exact ⟨by omega, by omega⟩

theorem Board.neighborsAux_symm (b : Board) (dirs : List Dir)
    (hdirs : ∀ d ∈ dirs, ((-d.1, -d.2) : Dir) ∈ dirs) (p q : Pos)
    (h : q ∈ b.neighborsAux p dirs) : p ∈ b.neighborsAux q dirs := by
  rw [Board.mem_neighborsAux] at h ⊢
  obtain ⟨hp, d, hd, hq, hqs⟩ := h
  refine ⟨hqs, (-d.1, -d.2), hdirs d hd, ?_, hp⟩
  rw [← hq, offset_neg]

/-- C8: on any board, being a step neighbor is symmetric, and likewise for
leap neighbors (the direction sets are closed under negation). -/
theorem C8_neighbor_symmetry (b : Board) (p q : Pos)
    (_hp : (b.atP p).isSome = true) (_hq : (b.atP q).isSome = true) :
    (q ∈ b.step_neighbors p → p ∈ b.step_neighbors q)
    ∧ (q ∈ b.leap_neighbors p → p ∈ b.leap_neighbors q) :=
  ⟨Board.neighborsAux_symm b STEP_DIRECTIONS step_dir_neg_mem p q,
   Board.neighborsAux_symm b LEAP_DIRECTIONS leap_dir_neg_mem p q⟩

/-- Witness for C8 on the single-row board. -/
theorem C8_neighbor_symmetry_witness :
    ((exBoardRow.atP (0, 0)).isSome = true ∧ (exBoardRow.atP (2, 0)).isSome = true)
    ∧ (((2, 0) ∈ exBoardRow.step_neighbors (0, 0)
          → (0, 0) ∈ exBoardRow.step_neighbors (2, 0))
      ∧ ((2, 0) ∈ exBoardRow.leap_neighbors (0, 0)
          → (0, 0) ∈ exBoardRow.leap_neighbors (2, 0))) :=
  ⟨⟨by decide, by decide⟩,
    C8_neighbor_symmetry exBoardRow (0, 0) (2, 0) (by decide) (by decide)⟩

/-! ### C9: the leap ring -/

/-- C9: a delta is a leap direction iff it is a sum of two step directions
that is neither zero nor itself a step direction. -/
theorem C9_leap_ring (d : Dir) :
    d ∈ LEAP_DIRECTIONS ↔
      ((∃ s1 ∈ STEP_DIRECTIONS, ∃ s2 ∈ STEP_DIRECTIONS, d = offset s1 s2)
        ∧ d ≠ ((0 : Int), (0 : Int)) ∧ d ∉ STEP_DIRECTIONS) := by
  constructor
  · intro h
    simp only [LEAP_DIRECTIONS, List.mem_cons, List.not_mem_nil, or_false] at h
    rcases h with rfl | rfl | rfl | rfl | rfl | rfl | rfl | rfl | rfl | rfl | rfl | rfl <;>
      decide
  · rintro ⟨⟨s1, hs1, s2, hs2, rfl⟩, hne, hns⟩
    simp only [STEP_DIRECTIONS, List.mem_cons, List.not_mem_nil, or_false] at hs1 hs2
    rcases hs1 with rfl | rfl | rfl | rfl | rfl | rfl <;>
      rcases hs2 with rfl | rfl | rfl | rfl | rfl | rfl <;>
        first
          | decide
          | exact absurd (by decide) hne
          | exact absurd (by decide) hns

/-- Witness for C9 at the east leap direction. -/
theorem C9_leap_ring_witness :
    ((4, 0) : Dir) ∈ LEAP_DIRECTIONS ↔
      ((∃ s1 ∈ STEP_DIRECTIONS, ∃ s2 ∈ STEP_DIRECTIONS, ((4, 0) : Dir) = offset s1 s2)
        ∧ ((4, 0) : Dir) ≠ ((0 : Int), (0 : Int)) ∧ ((4, 0) : Dir) ∉ STEP_DIRECTIONS) :=
  C9_leap_ring (4, 0)

/-! ### C10: the bounds queries cannot panic on reachable boards -/

theorem min?_isSome_of_ne_nil (l : List Int) (h : l ≠ []) :
    l.min?.isSome = true := by
  cases l with
  | nil => exact absurd rfl h
  | cons x xs => rfl

theorem max?_isSome_of_ne_nil (l : List Int) (h : l ≠ []) :
    l.max?.isSome = true := by
  cases l with
  | nil => exact absurd rfl h
  | cons x xs => rfl

theorem Board.bounds_isSome (b : Board) (h : b.positions ≠ []) :
    b.min_x.isSome = true ∧ b.max_x.isSome = true
      ∧ b.min_y.isSome = true ∧ b.max_y.isSome = true := by
  have hx : b.positions.map (fun e => e.1.1) ≠ [] := by
    intro hc; exact h (List.map_eq_nil_iff.mp hc)
  have hy : b.positions.map (fun e => e.1.2) ≠ [] := by
    intro hc; exact h (List.map_eq_nil_iff.mp hc)
  exact ⟨min?_isSome_of_ne_nil _ hx, max?_isSome_of_ne_nil _ hx,
    min?_isSome_of_ne_nil _ hy, max?_isSome_of_ne_nil _ hy⟩

/-- A board accepted by `load` carries exactly the built positions, and they
are non-empty (the empty case returns the error instead). -/
theorem load_ok_positions (input : List Char) (b : Board)
    (h : load input = .ok b) :
    b.positions = buildPositions input ∧ b.positions ≠ [] := by
  simp only [load] at h
  by_cases h0 : (buildPositions input).length = 0
  · rw [if_pos h0] at h
    exact LoadResult.noConfusion h
  · rw [if_neg h0] at h
    by_cases h1 : (Board.mk (buildPositions input) Piece.Black).min_x = some 0
        ∧ (Board.mk (buildPositions input) Piece.Black).min_y = some 0
    · rw [if_pos h1] at h
      injection h with hb
      have hpos : b.positions = buildPositions input :=
        (congrArg Board.positions hb).symm
      refine ⟨hpos, ?_⟩
      intro hnil
      apply h0
      rw [← hpos, hnil]
      rfl
    · rw [if_neg h1] at h
      exact LoadResult.noConfusion h

theorem Board.positions_set_ne_nil (b : Board) (p : Pos) (v : Piece)
    (h : b.positions ≠ []) : (b.set p v).positions ≠ [] := by
  intro hc
  simp only [Board.set, PositionMap.setOcc, List.map_eq_nil_iff] at hc
  exact h hc

theorem Board.positions_do_move_ne_nil (b : Board) (m : Move)
    (h : b.positions ≠ []) : (b.do_move m).positions ≠ [] := by
  intro hc
  apply h
  have hk := Board.keys_do_move b m
  rw [Board.keys, Board.keys, hc] at hk
  exact List.map_eq_nil_iff.mp hk.symm

/-- C10: on a non-empty position map, all four bounds queries return a value
(never the "empty board" panic branch); every board produced by `load` has a
non-empty position map, and `set` and `do_move` preserve non-emptiness, so
the panic branch is unreachable from any loaded board. -/
theorem C10_bounds_no_panic :
    (∀ b : Board, b.positions ≠ [] →
      b.min_x.isSome = true ∧ b.max_x.isSome = true
        ∧ b.min_y.isSome = true ∧ b.max_y.isSome = true)
    ∧ (∀ (input : List Char) (b : Board), load input = .ok b → b.positions ≠ [])
    ∧ (∀ (b : Board) (p : Pos) (v : Piece),
        b.positions ≠ [] → (b.set p v).positions ≠ [])
    ∧ (∀ (b : Board) (m : Move),
        b.positions ≠ [] → (b.do_move m).positions ≠ []) :=
  ⟨Board.bounds_isSome,
   fun input b h => (load_ok_positions input b h).2,
   Board.positions_set_ne_nil,
   Board.positions_do_move_ne_nil⟩

/-- Witness for C10 at a concrete non-empty board, move, and loaded input. -/
theorem C10_bounds_no_panic_witness :
    (exBoardB.positions ≠ []
      ∧ exBoardB.min_x.isSome = true ∧ exBoardB.max_x.isSome = true
      ∧ exBoardB.min_y.isSome = true ∧ exBoardB.max_y.isSome = true)
    ∧ (load ['X'] = .ok ⟨[(((0 : Int), (0 : Int)), Piece.Black)], .Black⟩
      ∧ (⟨[(((0 : Int), (0 : Int)), Piece.Black)], Piece.Black⟩ : Board).positions ≠ [])
    ∧ (exBoardB.set (0, 0) Piece.White).positions ≠ []
    ∧ (exBoardB.do_move (.Step (0, 0))).positions ≠ [] :=
  ⟨⟨by decide, C10_bounds_no_panic.1 exBoardB (by decide)⟩,
   ⟨by decide, C10_bounds_no_panic.2.1 ['X'] _ (by decide)⟩,
   C10_bounds_no_panic.2.2.1 exBoardB (0, 0) Piece.White (by decide),
   C10_bounds_no_panic.2.2.2 exBoardB (.Step (0, 0)) (by decide)⟩

/-! ### Loader lemmas for C6 and C7 -/

theorem lineCellsFrom_cons (y x : Nat) (c : Char) (rest : List Char) :
    lineCellsFrom y x (c :: rest)
      = match charPiece c with
        | some pc => (((x : Int), (y : Int)), pc) :: lineCellsFrom y (x + 1) rest
        | none => lineCellsFrom y (x + 1) rest := rfl

theorem cellsFrom_cons (y : Nat) (l : List Char) (rest : List (List Char)) :
    cellsFrom y (l :: rest) = lineCellsFrom y 0 l ++ cellsFrom (y + 1) rest := rfl

theorem lineCellsFrom_eq_nil (y x : Nat) (l : List Char) :
    lineCellsFrom y x l = [] ↔ ∀ c ∈ l, charPiece c = none := by
  induction l generalizing x with
  | nil => simp [lineCellsFrom]
  | cons c rest ih =>
    rw [lineCellsFrom_cons]
    cases hc : charPiece c with
    | some pc => simp [hc]
    | none => simp [hc, ih (x + 1)]

theorem cellsFrom_eq_nil (y : Nat) (ls : List (List Char)) :
    cellsFrom y ls = [] ↔ ∀ l ∈ ls, ∀ c ∈ l, charPiece c = none := by
  induction ls generalizing y with
  | nil => simp [cellsFrom]
  | cons l rest ih =>
    rw [cellsFrom_cons]
    simp [List.append_eq_nil, lineCellsFrom_eq_nil, ih (y + 1)]

theorem lineCellsFrom_mem_key (y x : Nat) (l : List Char) :
    ∀ e ∈ lineCellsFrom y x l, e.1.2 = (y : Int) ∧ (x : Int) ≤ e.1.1 := by
  induction l generalizing x with
  | nil => simp [lineCellsFrom]
  | cons c rest ih =>
    intro e he
    rw [lineCellsFrom_cons] at he
    cases hc : charPiece c with
    | some pc =>
      rw [hc] at he
      rcases List.mem_cons.mp he with rfl | he2
      · exact ⟨rfl, le_refl _⟩
      · obtain ⟨h1, h2⟩ := ih (x + 1) e he2
        refine ⟨h1, ?_⟩
        push_cast at h2 ⊢
        omega
    | none =>
      rw [hc] at he
      obtain ⟨h1, h2⟩ := ih (x + 1) e he
      refine ⟨h1, ?_⟩
      push_cast at h2 ⊢
      omega

theorem lineCellsFrom_keys_nodup (y x : Nat) (l : List Char) :
    ((lineCellsFrom y x l).map Prod.fst).Nodup := by
  induction l generalizing x with
  | nil => simp [lineCellsFrom]
  | cons c rest ih =>
    rw [lineCellsFrom_cons]
    cases hc : charPiece c with
    | none => exact ih (x + 1)
    | some pc =>
      rw [List.map_cons, List.nodup_cons]
      refine ⟨?_, ih (x + 1)⟩
      intro hmem
      obtain ⟨e, he, hfst⟩ := List.mem_map.mp hmem
      have hb := (lineCellsFrom_mem_key y (x + 1) rest e he).2
      rw [hfst] at hb
      have hb' : ((x + 1 : Nat) : Int) ≤ (x : Int) := hb
      push_cast at hb'
      omega

theorem cellsFrom_mem_key (y : Nat) (ls : List (List Char)) :
    ∀ e ∈ cellsFrom y ls, (y : Int) ≤ e.1.2 := by
  induction ls generalizing y with
  | nil => simp [cellsFrom]
  | cons l rest ih =>
    intro e he
    rw [cellsFrom_cons, List.mem_append] at he
    rcases he with he | he
    · exact le_of_eq (lineCellsFrom_mem_key y 0 l e he).1.symm
    · have h2 := ih (y + 1) e he
      have h2' : ((y + 1 : Nat) : Int) ≤ e.1.2 := h2
      push_cast at h2' ⊢
      omega

theorem cellsFrom_keys_nodup (y : Nat) (ls : List (List Char)) :
    ((cellsFrom y ls).map Prod.fst).Nodup := by
  induction ls generalizing y with
  | nil => simp [cellsFrom]
  | cons l rest ih =>
    rw [cellsFrom_cons, List.map_append]
    refine List.Nodup.append (lineCellsFrom_keys_nodup y 0 l) (ih (y + 1)) ?_
    intro k hk1 hk2
    obtain ⟨e1, he1, hf1⟩ := List.mem_map.mp hk1
    obtain ⟨e2, he2, hf2⟩ := List.mem_map.mp hk2
    have h1 := (lineCellsFrom_mem_key y 0 l e1 he1).1
    have h2 := cellsFrom_mem_key (y + 1) rest e2 he2
    rw [hf1] at h1
    rw [hf2] at h2
    rw [h1] at h2
    have h2' : ((y + 1 : Nat) : Int) ≤ (y : Int) := h2
    push_cast at h2'
    omega

theorem cellsOf_keys_nodup (input : List Char) :
    ((cellsOf input).map Prod.fst).Nodup :=
  cellsFrom_keys_nodup 0 (loadLines input)

theorem PositionMap.insert_fresh (m : PositionMap) (p : Pos) (v : Piece)
    (h : p ∉ m.map Prod.fst) : m.insert p v = m ++ [(p, v)] := by
  rw [PositionMap.insert, if_neg]
  intro hc
  obtain ⟨e, he, hd⟩ := List.any_eq_true.mp hc
  rw [decide_eq_true_eq] at hd
  exact h (List.mem_map.mpr ⟨e, he, hd⟩)

theorem foldl_insert_fresh (l : List (Pos × Piece)) (m : PositionMap)
    (hdis : ∀ e ∈ l, e.1 ∉ m.map Prod.fst)
    (hnd : (l.map Prod.fst).Nodup) :
    l.foldl (fun acc e => acc.insert e.1 e.2) m = m ++ l := by
  induction l generalizing m with
  | nil => simp
  | cons e rest ih =>
    rw [List.map_cons, List.nodup_cons] at hnd
    have h1 : ∀ e' ∈ rest, e'.1 ∉ (m ++ [(e.1, e.2)]).map Prod.fst := by
      intro e' he' hc
      rw [List.map_append, List.mem_append] at hc
      rcases hc with hm | hs
      · exact hdis e' (List.mem_cons_of_mem e he') hm
      · have he2 : e'.1 = e.1 := by simpa using hs
        exact hnd.1 (he2 ▸ List.mem_map.mpr ⟨e', he', rfl⟩)
    rw [List.foldl_cons,
      PositionMap.insert_fresh m e.1 e.2 (hdis e (List.mem_cons_self e rest)),
      ih (m ++ [(e.1, e.2)]) h1 hnd.2, List.append_assoc]
    rfl

theorem buildPositions_eq_cellsOf (input : List Char) :
    buildPositions input = cellsOf input := by
  rw [buildPositions,
    foldl_insert_fresh (cellsOf input) [] (by simp) (cellsOf_keys_nodup input)]
  rfl

theorem PositionMap.get_eq_some_iff (m : PositionMap)
    (hnd : (m.map Prod.fst).Nodup) (p : Pos) (v : Piece) :
    m.get p = some v ↔ (p, v) ∈ m := by
  induction m with
  | nil => simp [PositionMap.get]
  | cons e rest ih =>
    rw [List.map_cons, List.nodup_cons] at hnd
    show (if e.1 = p then some e.2 else PositionMap.get rest p) = some v ↔ _
    by_cases hep : e.1 = p
    · subst hep
      rw [if_pos rfl]
      constructor
      · intro hv
        injection hv with hv
        subst hv
        rw [Prod.mk.eta]
        exact List.mem_cons_self e rest
      · intro hm
        rcases List.mem_cons.mp hm with he | hm2
        · exact congrArg some (congrArg Prod.snd he.symm)
        · exact absurd (List.mem_map.mpr ⟨(e.1, v), hm2, rfl⟩) hnd.1
    · rw [if_neg hep, ih hnd.2]
      constructor
      · exact fun hm => List.mem_cons_of_mem e hm
      · intro hm
        rcases List.mem_cons.mp hm with he | hm2
        · exact absurd (congrArg Prod.fst he.symm) hep
        · exact hm2

theorem mem_lineCellsFrom (y x : Nat) (l : List Char) (p : Pos) (v : Piece) :
    (p, v) ∈ lineCellsFrom y x l ↔
      ∃ i : Nat, ∃ c, l[i]? = some c ∧ charPiece c = some v
        ∧ p = (((x + i : Nat) : Int), (y : Int)) := by
  induction l generalizing x with
  | nil => simp [lineCellsFrom]
  | cons ch rest ih =>
    rw [lineCellsFrom_cons]
    cases hc : charPiece ch with
    | some pc =>
      rw [List.mem_cons, ih (x + 1)]
      constructor
      · rintro (he | ⟨i, c, hi, hcp, hp⟩)
        · have hv : v = pc := congrArg Prod.snd he
          have hp : p = ((x : Int), (y : Int)) := congrArg Prod.fst he
          refine ⟨0, ch, by simp, by rw [hc, hv], ?_⟩
          rw [hp]
          norm_num
        · refine ⟨i + 1, c, by simpa using hi, hcp, ?_⟩
          rw [hp, show x + 1 + i = x + (i + 1) from by omega]
      · rintro ⟨i, c, hi, hcp, hp⟩
        cases i with
        | zero =>
          rw [List.getElem?_cons_zero] at hi
          injection hi with hi
          subst hi
          rw [hc] at hcp
          injection hcp with hcp
          left
          rw [hp, ← hcp]
          norm_num
        | succ i =>
          right
          refine ⟨i, c, by simpa using hi, hcp, ?_⟩
          rw [hp, show x + (i + 1) = x + 1 + i from by omega]
    | none =>
      rw [ih (x + 1)]
      constructor
      · rintro ⟨i, c, hi, hcp, hp⟩
        refine ⟨i + 1, c, by simpa using hi, hcp, ?_⟩
        rw [hp, show x + 1 + i = x + (i + 1) from by omega]
      · rintro ⟨i, c, hi, hcp, hp⟩
        cases i with
        | zero =>
          rw [List.getElem?_cons_zero] at hi
          injection hi with hi
          subst hi
          rw [hc] at hcp
          exact absurd hcp (by simp)
        | succ i =>
          refine ⟨i, c, by simpa using hi, hcp, ?_⟩
          rw [hp, show x + (i + 1) = x + 1 + i from by omega]

theorem mem_cellsFrom (y : Nat) (ls : List (List Char)) (p : Pos) (v : Piece) :
    (p, v) ∈ cellsFrom y ls ↔
      ∃ j : Nat, ∃ l, ls[j]? = some l
        ∧ ∃ i : Nat, ∃ c, l[i]? = some c ∧ charPiece c = some v
        ∧ p = ((i : Int), ((y + j : Nat) : Int)) := by
  induction ls generalizing y with
  | nil => simp [cellsFrom]
  | cons l rest ih =>
    rw [cellsFrom_cons, List.mem_append, mem_lineCellsFrom, ih (y + 1)]
    constructor
    · rintro (⟨i, c, hi, hcp, hp⟩ | ⟨j, l', hj, i, c, hi, hcp, hp⟩)
      · refine ⟨0, l, by simp, i, c, hi, hcp, ?_⟩
        rw [hp]
        norm_num
      · refine ⟨j + 1, l', by simpa using hj, i, c, hi, hcp, ?_⟩
        rw [hp, show y + 1 + j = y + (j + 1) from by omega]
    · rintro ⟨j, l', hj, i, c, hi, hcp, hp⟩
      cases j with
      | zero =>
        rw [List.getElem?_cons_zero] at hj
        injection hj with hj
        subst hj
        left
        refine ⟨i, c, hi, hcp, ?_⟩
        rw [hp]
        norm_num
      | succ j =>
        right
        refine ⟨j, l', by simpa using hj, i, c, hi, hcp, ?_⟩
        rw [hp, show y + (j + 1) = y + 1 + j from by omega]

/-! ### C6: the outcomes of `Board::load` -/

/-- C6 counterexample: the input `"aX"` contains one recognized cell
character (the `X`, at column 1 of row 0), yet `load` neither returns `Ok`
nor the error value: the `assert_eq!(board.min_x(), 0)` normalization
assertion fails, a panic. -/
theorem C6_counterexample :
    cellsOf ['a', 'X'] = [(((1 : Int), (0 : Int)), Piece.Black)]
    ∧ load ['a', 'X'] = .panicked := by
  decide

/-- C6, amended: `load` returns the "no pieces on board" error exactly when
no cell character is recognized; when at least one is recognized, the result
is `Ok` exactly when the minimal x and minimal y over the recognized
positions are both 0, and otherwise the normalization assertion fails (a
panic, not the error value). -/
theorem C6_load_classification (input : List Char) :
    (load input = .err "No pieces on board."
      ↔ ∀ l ∈ loadLines input, ∀ c ∈ l, charPiece c = none)
    ∧ ((∃ l ∈ loadLines input, ∃ c ∈ l, charPiece c ≠ none) →
        (load input = .ok (Board.mk (buildPositions input) Piece.Black)
          ↔ ((cellsOf input).map (fun e => e.1.1)).min? = some 0
            ∧ ((cellsOf input).map (fun e => e.1.2)).min? = some 0)
        ∧ (¬ (((cellsOf input).map (fun e => e.1.1)).min? = some 0
              ∧ ((cellsOf input).map (fun e => e.1.2)).min? = some 0)
            → load input = .panicked)) := by
  have hb : buildPositions input = cellsOf input := buildPositions_eq_cellsOf input
  have hnil : cellsOf input = [] ↔ ∀ l ∈ loadLines input, ∀ c ∈ l, charPiece c = none :=
    cellsFrom_eq_nil 0 (loadLines input)
  have hmx : (Board.mk (buildPositions input) Piece.Black).min_x
      = ((cellsOf input).map (fun e => e.1.1)).min? := by
    rw [Board.min_x, hb]
  have hmy : (Board.mk (buildPositions input) Piece.Black).min_y
      = ((cellsOf input).map (fun e => e.1.2)).min? := by
    rw [Board.min_y, hb]
  constructor
  · simp only [load]
    by_cases h0 : (buildPositions input).length = 0
    · rw [if_pos h0]
      exact iff_of_true rfl
        (hnil.mp (by rw [← hb]; exact List.length_eq_zero.mp h0))
    · rw [if_neg h0]
      apply iff_of_false
      · split_ifs with h1 <;> exact not_false
      · intro hall
        apply h0
        rw [hb, hnil.mpr hall]
        rfl
  · intro hex
    have hne : cellsOf input ≠ [] := by
      intro hc
      obtain ⟨l, hl, c, hcmem, hcp⟩ := hex
      exact hcp (hnil.mp hc l hl c hcmem)
    have h0 : ¬ (buildPositions input).length = 0 := by
      intro hc
      exact hne (by rw [← hb]; exact List.length_eq_zero.mp hc)
    constructor
    · constructor
      · intro hok
        simp only [load] at hok
        rw [if_neg h0] at hok
        by_cases h1 : (Board.mk (buildPositions input) Piece.Black).min_x = some 0
            ∧ (Board.mk (buildPositions input) Piece.Black).min_y = some 0
        · rw [← hmx, ← hmy]
          exact h1
        · rw [if_neg h1] at hok
          exact absurd hok (fun hc => LoadResult.noConfusion hc)
      · intro hmin
        simp only [load]
        rw [if_neg h0,
          if_pos (show (Board.mk (buildPositions input) Piece.Black).min_x = some 0
              ∧ (Board.mk (buildPositions input) Piece.Black).min_y = some 0 from by
            rw [hmx, hmy]; exact hmin)]
    · intro hmin
      simp only [load]
      rw [if_neg h0,
        if_neg (show ¬ ((Board.mk (buildPositions input) Piece.Black).min_x = some 0
            ∧ (Board.mk (buildPositions input) Piece.Black).min_y = some 0) from by
          rw [hmx, hmy]; exact hmin)]

/-- Witness for C6 at the input `"X"`, which has one recognized cell. -/
theorem C6_load_classification_witness :
    (∃ l ∈ loadLines ['X'], ∃ c ∈ l, charPiece c ≠ none)
    ∧ ((load ['X'] = .ok (Board.mk (buildPositions ['X']) Piece.Black)
          ↔ ((cellsOf ['X']).map (fun e => e.1.1)).min? = some 0
            ∧ ((cellsOf ['X']).map (fun e => e.1.2)).min? = some 0)
      ∧ (¬ (((cellsOf ['X']).map (fun e => e.1.1)).min? = some 0
            ∧ ((cellsOf ['X']).map (fun e => e.1.2)).min? = some 0)
          → load ['X'] = .panicked)) :=
  ⟨by decide, (C6_load_classification ['X']).2 (by decide)⟩

/-! ### C7: the cell set produced by `Board::load` -/

/-- The cell set described by the claim, read literally: positions of the
recognized characters keyed by (character-column, line-row) in the
de-indented block, rows counting every line of that block (including blank
ones). -/
def dedentBlockCells (input : List Char) : List (Pos × Piece) :=
  cellsFrom 0 (rustLines (dedent input))

/-- C7 counterexample: for the input `"\nX"` (a blank first line), `load`
succeeds and keys the only cell as `(0, 0)`, because the loader drops blank
lines before numbering rows; in the de-indented block the `X` sits on line
1, so the claimed cell set is `{((0, 1), Black)}`, which the loaded board
does not have. -/
theorem C7_counterexample :
    load ['\n', 'X']
        = .ok (Board.mk [(((0 : Int), (0 : Int)), Piece.Black)] Piece.Black)
    ∧ dedentBlockCells ['\n', 'X'] = [(((0 : Int), (1 : Int)), Piece.Black)]
    ∧ (Board.mk [(((0 : Int), (0 : Int)), Piece.Black)] Piece.Black).atP (0, 1)
        = none := by
  decide

/-- C7, amended: rows count only the non-blank lines (after trailing
whitespace is trimmed — which cannot remove a cell character) of the
de-indented block.  With that numbering, the loaded board holds piece `v` at
`p` precisely when `p = (column, row)` of a recognized character mapping to
`v`; in particular the key set is exactly the set of those positions. -/
theorem C7_loaded_cells (input : List Char) (b : Board)
    (h : load input = .ok b) (p : Pos) (v : Piece) :
    b.atP p = some v ↔
      ∃ y : Nat, ∃ l, (loadLines input)[y]? = some l
        ∧ ∃ x : Nat, ∃ c, l[x]? = some c ∧ charPiece c = some v
        ∧ p = ((x : Int), (y : Int)) := by
  have hpos := (load_ok_positions input b h).1
  rw [Board.atP, hpos, buildPositions_eq_cellsOf,
    PositionMap.get_eq_some_iff (cellsOf input) (cellsOf_keys_nodup input) p v,
    cellsOf, mem_cellsFrom]
  constructor
  · rintro ⟨j, l, hj, i, c, hi, hcp, hp⟩
    refine ⟨j, l, hj, i, c, hi, hcp, ?_⟩
    rw [hp]
    norm_num
  · rintro ⟨j, l, hj, i, c, hi, hcp, hp⟩
    refine ⟨j, l, hj, i, c, hi, hcp, ?_⟩
    rw [hp]
    norm_num

/-- Witness for C7 at the input `"X"`: the loaded board holds Black at
`(0, 0)`, matching the recognized character at column 0 of row 0. -/
theorem C7_loaded_cells_witness :
    load ['X'] = .ok (Board.mk [(((0 : Int), (0 : Int)), Piece.Black)] Piece.Black)
    ∧ ((Board.mk [(((0 : Int), (0 : Int)), Piece.Black)] Piece.Black).atP (0, 0)
          = some Piece.Black
        ↔ ∃ y : Nat, ∃ l, (loadLines ['X'])[y]? = some l
            ∧ ∃ x : Nat, ∃ c, l[x]? = some c ∧ charPiece c = some Piece.Black
            ∧ ((0 : Int), (0 : Int)) = ((x : Int), (y : Int))) :=
  ⟨by decide,
    C7_loaded_cells ['X']
      (Board.mk [(((0 : Int), (0 : Int)), Piece.Black)] Piece.Black)
      (by decide) (0, 0) Piece.Black⟩

end Hexxagon
